import Mathlib

/-
Verification of the Tiny-Basic VP-700 text-to-WAV converter
(src/Software/TextToWavVIPFileCLI_2.py).

The Python program keeps every "byte" as a textual hex string (two hex
digits in the regular case); the block assembler concatenates such
strings and the modulator turns each one into a pulse train.  The
shallow embedding below mirrors that: bytes are hexadecimal character
lists (List Char), exactly as the source manipulates them.
-/

namespace VP700

/-! ### Hexadecimal strings, as Python produces and consumes them -/

/-- Digit characters of Python number formatting after .upper():
digits 0-9 then uppercase letters (hex produces lowercase, but the
source always applies .upper() via integer_to_hex). -/
def hexDigitChar (d : Nat) : Char :=
  if d < 10 then Char.ofNat (48 + d) else Char.ofNat (55 + d)

/-- Value of one hexadecimal digit character, as Python int(s, 16)
reads it (upper or lower case). -/
def hexCharVal (c : Char) : Nat :=
  if 48 ≤ c.toNat ∧ c.toNat ≤ 57 then c.toNat - 48
  else if 65 ≤ c.toNat ∧ c.toNat ≤ 70 then c.toNat - 55
  else if 97 ≤ c.toNat ∧ c.toNat ≤ 102 then c.toNat - 87
  else 0

/-- Python int(s, 16) on a hex-digit string. -/
def parseHex (s : List Char) : Nat :=
  s.foldl (fun a c => 16 * a + hexCharVal c) 0

/-- Python int(s) on a decimal-digit string. -/
def parseDec (s : List Char) : Nat :=
  s.foldl (fun a c => 10 * a + (c.toNat - 48)) 0

/-- Most-significant-first digit characters of n in base b; fuel-driven
so that it is structurally recursive (the fuel is always taken to be at
least n, and n / b strictly decreases while n is positive). -/
def digitsAux (b : Nat) : Nat → Nat → List Char
  | 0, _ => []
  | fuel + 1, n => if n = 0 then [] else digitsAux b fuel (n / b) ++ [hexDigitChar (n % b)]

/-- Python repr of a number in base b without prefix: hex(n)[2:].upper()
for b = 16, bin(n)[2:] for b = 2.  Zero prints as the single digit 0. -/
def pyNumRepr (b n : Nat) : List Char :=
  if n = 0 then [Char.ofNat 48] else digitsAux b n n

/-- Python str.zfill: left-pad with zero characters to the given width. -/
def zfill (s : List Char) (pad : Nat) : List Char :=
  List.replicate (pad - s.length) (Char.ofNat 48) ++ s

/-- Source integer_to_hex: hex(var)[2:].upper().zfill(pad). -/
def integer_to_hex (var : Nat) (pad : Nat) : List Char :=
  zfill (pyNumRepr 16 var) pad

/-- Source string_to_hex: integer_to_hex(ord(var)) with default pad 2. -/
def string_to_hex (c : Char) : List Char :=
  integer_to_hex c.toNat 2

/-! ### Line tokenizer (Extract_Number_String, mnemonic table, token loop) -/

/-- Python str.upper restricted to ASCII: lowercase letters a-z map to
uppercase, everything else is unchanged.  The source only documents
ASCII BASIC input. -/
def upperChar (c : Char) : Char :=
  if 97 ≤ c.toNat ∧ c.toNat ≤ 122 then Char.ofNat (c.toNat - 32) else c

/-- ASCII whitespace as matched by the regex class and str.lstrip:
space, tab, newline, vertical tab, form feed, carriage return. -/
def isPySpace (c : Char) : Bool :=
  c == Char.ofNat 32 || c == Char.ofNat 9 || c == Char.ofNat 10 ||
  c == Char.ofNat 11 || c == Char.ofNat 12 || c == Char.ofNat 13

/-- Source Extract_Number_String: uppercase the line, match a leading
run of decimal digits; on success return the number and the remainder
stripped of leading whitespace, otherwise None with the uppercased
text. -/
def Extract_Number_String (text : List Char) : Option Nat × List Char :=
  let t := text.map upperChar
  let digits := t.takeWhile (fun c => c.isDigit)
  if digits.isEmpty then (none, t)
  else (some (parseDec digits),
        (t.dropWhile (fun c => c.isDigit)).dropWhile isPySpace)

/-- The mnemonic shortcut table, entry for entry as the source builds
it (keyword, two-hex-digit code); the THEN entry is commented out in
the source and therefore absent here. -/
def mnemonic_index : List (List Char × List Char) :=
  [ (['?'], ['8', '8']),
    (['A', 'B', 'S'], ['9', 'C']),
    (['C', 'L', 'S'], ['9', 'C']),
    (['C', 'O', 'L', 'O', 'R'], ['A', '4']),
    (['E', 'N', 'D'], ['9', '4']),
    (['G', 'O', 'K', 'E', 'Y'], ['8', '4']),
    (['G', 'O', 'S', 'U', 'B'], ['8', '2']),
    (['G', 'O', 'T', 'O'], ['8', '0']),
    (['H', 'I', 'T'], ['9', '4']),
    (['I', 'F'], ['8', '6']),
    (['I', 'N', 'P', 'U', 'T'], ['9', '6']),
    (['K', 'E', 'Y'], ['8', 'E']),
    (['L', 'E', 'T'], ['9', '0']),
    (['L', 'I', 'S', 'T'], ['9', 'E']),
    (['L', 'O', 'A', 'D'], ['A', '0']),
    (['M', 'E', 'M'], ['8', '0']),
    (['N', 'E', 'W'], ['9', '2']),
    (['P', 'R', 'I', 'N', 'T'], ['8', '8']),
    (['R', 'E', 'M'], ['8', 'C']),
    (['R', 'E', 'T', 'U', 'R', 'N'], ['8', 'E']),
    (['R', 'N', 'D'], ['9', '8']),
    (['R', 'U', 'N'], ['8', 'A']),
    (['S', 'A', 'V', 'E'], ['9', '8']),
    (['S', 'H', 'O', 'W'], ['9', 'A']),
    (['T', 'I'], ['8', 'A']),
    (['T', 'V', 'O', 'F', 'F'], ['A', '6']),
    (['T', 'V', 'O', 'N'], ['A', '2']) ]

/-- Dictionary lookup word in mnemonic_index. -/
def mnemonicLookup (w : List Char) : Option (List Char) :=
  (mnemonic_index.find? (fun p => p.1 == w)).map (fun p => p.2)

/-- re.split with a captured whitespace group: pieces of text between
whitespace runs interleaved with the runs themselves, with empty
pieces at the boundaries, exactly as Python returns them.  The mode
flag says whether the accumulator (kept reversed) is currently a
whitespace run (true) or a piece of plain text (false). -/
def splitAux : Bool → List Char → List Char → List (List Char)
  | mode, acc, [] => if mode then [acc.reverse, []] else [acc.reverse]
  | mode, acc, c :: cs =>
    if mode then
      if isPySpace c then splitAux true (c :: acc) cs
      else acc.reverse :: splitAux false [c] cs
    else
      if isPySpace c then acc.reverse :: splitAux true [c] cs
      else splitAux false (c :: acc) cs

/-- Source re.split of a code body into alternating word and
whitespace-run tokens. -/
def splitTokens (s : List Char) : List (List Char) :=
  splitAux false [] s

/-- ' '.join of the hex strings collected so far. -/
def join_space : List (List Char) → List Char
  | [] => []
  | [x] => x
  | x :: xs => x ++ Char.ofNat 32 :: join_space xs

/-- Source get_basic_size with asHex=1: strip spaces, count the bytes
of the hex string (bytes.fromhex halves the digit count), add the
offset and re-encode in hex.  The source calls it only with asHex=1. -/
def get_basic_size (hex_string : List Char) (offset pad : Nat) : List Char :=
  integer_to_hex ((hex_string.filter (fun c => !(c == Char.ofNat 32))).length / 2 + offset) pad

/-- The inner letter loop of Create_BinData: spell a non-mnemonic
token character by character, eliding a space character while the
first-token-was-a-mnemonic flag is set and the token index is 1. -/
def letterLoop : List Char → Nat → Bool → List (List Char) → List (List Char) × Bool
  | [], _, nospc, hexes => (hexes, nospc)
  | c :: cs, index, nospc, hexes =>
    if index = 1 ∧ c.toNat = 32 ∧ nospc = true then
      letterLoop cs index false hexes
    else
      letterLoop cs index nospc (hexes ++ [string_to_hex c])

/-- The per-token loop of Create_BinData.  State: collected code hex
bytes, the no-space flag, and the last computed basic_line_hex (the
source leaves the variable from the previous iteration; it is always
written before use because the final carriage-return token is never a
mnemonic). -/
def lineLoop : List (List Char) → Nat → Bool → List (List Char) → List Char →
    List (List Char) × List Char
  | [], _, _, hexes, basic => (hexes, basic)
  | w :: ws, index, nospc, hexes, basic =>
    match mnemonicLookup w with
    | some code =>
        lineLoop ws (index + 1) (if index = 0 then true else nospc) (hexes ++ [code]) basic
    | none =>
        let r := letterLoop w index nospc hexes
        lineLoop ws (index + 1) r.2 r.1 (get_basic_size (join_space r.1) 1 2)

/-- Token-loop entry point: index 0, flag clear, empty accumulators. -/
def encodeTokens (toks : List (List Char)) : List (List Char) × List Char :=
  lineLoop toks 0 false [] []

/-- One line of Create_BinData: label split into two big-endian hex
bytes, the line length byte, then the code bytes.  A line without a
leading numeric label contributes nothing. -/
def tokenStream (line : List Char) : List (List Char) :=
  match Extract_Number_String line with
  | (none, _) => []
  | (some label, code) =>
    let hex_string := integer_to_hex label 4
    let r := encodeTokens (splitTokens code ++ [[Char.ofNat 13]])
    hex_string.take 2 :: hex_string.drop 2 :: r.2 :: r.1

/-! ### Block assembler -/

/-- Source Create_BinData after the per-line loop: concatenate the
per-line token streams in file order, prepend the two total-length
bytes and six zero bytes, then prepend the two checksum bytes obtained
from the sum of everything already in the array. -/
def Create_BinData (lines : List (List Char)) : List (List Char) :=
  let code_array := (lines.map tokenStream).flatten
  let basic_size_hex := get_basic_size (join_space code_array) 10 4
  let final0 := basic_size_hex.take 2 :: basic_size_hex.drop 2 ::
      (List.replicate 6 (integer_to_hex 0 2) ++ code_array)
  let total_sum := (final0.map parseHex).sum
  let total_hex := integer_to_hex total_sum 4
  total_hex.take 2 :: total_hex.drop 2 :: final0

/-- Source hex_to_binary with pad 8: every hex byte becomes the 8-bit
binary string fed to the modulator. -/
def hex_to_binary (hexes : List (List Char)) : List (List Char) :=
  hexes.map (fun h => zfill (pyNumRepr 2 (parseHex h)) 8)

/-- An 8-bit binary string for one byte value, bin(v).zfill(8). -/
def toBinary8 (v : Nat) : List Char :=
  zfill (pyNumRepr 2 v) 8

/-! ### Bit/byte modulator and waveform emitter -/

/-- Which square-wave cycle a step of Encode_Data appends: a cycle at
ONES_FREQ or a cycle at ZERO_FREQ. -/
inductive Pulse
  | one
  | zero
deriving DecidableEq, BEq, Repr

/-- Fixed wave parameters of the source. -/
def CENTER : Nat := 128

/-- Amplitude default of the source. -/
def AMPLITUDE : Nat := 225

/-- Source make_square_wave: one full square-wave cycle, each half
held for framerate/freq/2 samples (floor division). -/
def make_square_wave (freq framerate : Nat) : List Nat :=
  let n := framerate / freq / 2
  List.replicate n (CENTER - AMPLITUDE / 2) ++ List.replicate n (CENTER + AMPLITUDE / 2)

/-- The 8-data-bit loop of Encode_Data: one pulse per bit character,
counting the emitted one-pulses. -/
def dataLoop : List Char → Nat → List Pulse × Nat
  | [], p => ([], p)
  | b :: bs, p =>
    if b == Char.ofNat 49 then
      let r := dataLoop bs (p + 1)
      (Pulse.one :: r.1, r.2)
    else
      let r := dataLoop bs p
      (Pulse.zero :: r.1, r.2)

/-- Source Encode_Data at the pulse level: reverse the bit string,
emit the start-bit pulse, the 8 data pulses, and the parity pulse (a
one-pulse exactly when the count of emitted one-pulses is odd).  The
source appends the sample bytes of each pulse directly; the waveform
is recovered by mapping each pulse to its square-wave cycle. -/
def Encode_Data (startbit : Nat) (bits : List Char) : List Pulse :=
  let b := bits.reverse
  let start := if startbit = 0 then Pulse.zero else Pulse.one
  let r := dataLoop b 0
  start :: r.1 ++ [if r.2 % 2 = 0 then Pulse.zero else Pulse.one]

/-- Sample bytes of one pulse, at the configured frequencies. -/
def pulseSamples (framerate oq zq : Nat) : Pulse → List Nat
  | Pulse.one => make_square_wave oq framerate
  | Pulse.zero => make_square_wave zq framerate

/-- Python sequence repetition list * k. -/
def repeatL {α : Type} (l : List α) (k : Nat) : List α :=
  (List.replicate k l).flatten

/-- The leader written by Write_Wav:
zero_pulse * (int(framerate / len(zero_pulse)) * leader). -/
def leader_samples (framerate zq leader : Nat) : List Nat :=
  repeatL (make_square_wave zq framerate)
    (framerate / (make_square_wave zq framerate).length * leader)

/-- Source Write_Wav as the emitted sample stream: leader, then the
modulated data bytes, then blanks trailing one-pulses. -/
def Write_Wav (framerate oq zq startbit leader blanks : Nat)
    (binData : List (List Char)) : List Nat :=
  leader_samples framerate zq leader
    ++ ((binData.map
          (fun b => ((Encode_Data startbit b).map (pulseSamples framerate oq zq)).flatten)).flatten)
    ++ repeatL (make_square_wave oq framerate) blanks

/-! ### Derived notions used to state the claims -/

/-- What one token contributes when no space elision is in effect: the
table code for a mnemonic, otherwise one hex byte per character. -/
def noElideTok (w : List Char) : List (List Char) :=
  match mnemonicLookup w with
  | some code => [code]
  | none => w.map string_to_hex

/-- A regular textual byte: exactly two hex digits and no space. -/
def goodEntry (e : List Char) : Prop :=
  e.length = 2 ∧ (Char.ofNat 32) ∉ e

instance goodEntryDecidable (e : List Char) : Decidable (goodEntry e) :=
  inferInstanceAs (Decidable (e.length = 2 ∧ (Char.ofNat 32) ∉ e))

/-- Sum of the byte values of everything in the ProgramBlock after the
two checksum bytes. -/
def block_body_sum (lines : List (List Char)) : Nat :=
  (((Create_BinData lines).drop 2).map parseHex).sum

/-! ### Round-trip lemmas for the hex machinery -/

theorem hexCharVal_hexDigitChar {d : Nat} (hd : d < 16) :
    hexCharVal (hexDigitChar d) = d := by
  interval_cases d <;> decide

theorem parseHex_append (a b : List Char) :
    parseHex (a ++ b) = parseHex a * 16 ^ b.length + parseHex b := by
  have key : ∀ (b : List Char) (x : Nat),
      List.foldl (fun a c => 16 * a + hexCharVal c) x b =
        x * 16 ^ b.length + parseHex b := by
    intro b
    induction b with
    | nil => intro x; simp [parseHex]
    | cons c cs ih =>
      intro x
      have h1 := ih (16 * x + hexCharVal c)
      have h2 := ih (hexCharVal c)
      simp only [List.foldl_cons, parseHex, mul_zero, zero_add, List.length_cons] at *
      rw [h1, h2]
      ring
  unfold parseHex
  rw [List.foldl_append]
  exact key b _

theorem parseHex_digitsAux {n fuel : Nat} (h : n ≤ fuel) :
    parseHex (digitsAux 16 fuel n) = n := by
  induction n using Nat.strong_induction_on generalizing fuel with
  | _ n ih =>
    match fuel with
    | 0 =>
      have : n = 0 := Nat.le_zero.mp h
      subst this
      simp [digitsAux, parseHex]
    | fuel + 1 =>
      by_cases hn : n = 0
      · subst hn; simp [digitsAux, parseHex]
      · have hdiv : n / 16 < n := Nat.div_lt_self (Nat.pos_of_ne_zero hn) (by norm_num)
        have hfuel : n / 16 ≤ fuel := by omega
        simp only [digitsAux, if_neg hn]
        rw [parseHex_append, ih (n / 16) hdiv hfuel]
        have : parseHex [hexDigitChar (n % 16)] =
            n % 16 := by
          simp [parseHex, hexCharVal_hexDigitChar (Nat.mod_lt n (by norm_num))]
        rw [this]
        simp only [List.length_singleton, pow_one]
        omega

theorem length_digitsAux_le {k n fuel : Nat} (hf : n ≤ fuel) (hk : n < 16 ^ k) :
    (digitsAux 16 fuel n).length ≤ k := by
  induction n using Nat.strong_induction_on generalizing fuel k with
  | _ n ih =>
    match fuel with
    | 0 => simp [digitsAux]
    | fuel + 1 =>
      by_cases hn : n = 0
      · subst hn; simp [digitsAux]
      · have hkpos : 0 < k := by
          by_contra hc
          have : k = 0 := by omega
          subst this
          simp at hk
          omega
        have hdiv : n / 16 < n := Nat.div_lt_self (Nat.pos_of_ne_zero hn) (by norm_num)
        have hfuel : n / 16 ≤ fuel := by omega
        have hlt : n / 16 < 16 ^ (k - 1) := by
          have h16 : 16 ^ k = 16 ^ (k - 1) * 16 := by
            conv_lhs => rw [show k = (k - 1) + 1 by omega]
            rw [pow_succ]
          exact Nat.div_lt_of_lt_mul (by omega)
        simp only [digitsAux, if_neg hn, List.length_append, List.length_singleton]
        have := ih (n / 16) hdiv hfuel hlt
        omega

theorem hexDigitChar_ne_space {d : Nat} (hd : d < 16) :
    hexDigitChar d ≠ Char.ofNat 32 := by
  have h : ∀ d, d < 16 → hexDigitChar d ≠ Char.ofNat 32 := by decide
  exact h d hd

theorem space_not_mem_digitsAux {b n fuel : Nat} (hb0 : 0 < b) (hb : b ≤ 16) :
    (Char.ofNat 32) ∉ digitsAux b fuel n := by
  induction fuel generalizing n with
  | zero => simp [digitsAux]
  | succ fuel ih =>
    by_cases hn : n = 0
    · subst hn; simp [digitsAux]
    · simp only [digitsAux, if_neg hn, List.mem_append, List.mem_singleton]
      push_neg
      have hd : n % b < 16 := Nat.lt_of_lt_of_le (Nat.mod_lt n hb0) hb
      exact ⟨ih, fun hcon => hexDigitChar_ne_space hd hcon.symm⟩

theorem parseHex_replicate_zero (m : Nat) :
    parseHex (List.replicate m (Char.ofNat 48)) = 0 := by
  induction m with
  | zero => rfl
  | succ m ih =>
    have hsplit : List.replicate (m + 1) (Char.ofNat 48) =
        [Char.ofNat 48] ++ List.replicate m (Char.ofNat 48) := by
      simp [List.replicate_succ]
    have h0 : parseHex [Char.ofNat 48] = 0 := by decide
    rw [hsplit, parseHex_append, ih, h0]
    ring

theorem parseHex_zfill (s : List Char) (p : Nat) :
    parseHex (zfill s p) = parseHex s := by
  unfold zfill
  rw [parseHex_append, parseHex_replicate_zero]
  ring

theorem parseHex_pyNumRepr (n : Nat) : parseHex (pyNumRepr 16 n) = n := by
  by_cases hn : n = 0
  · subst hn; rfl
  · simp only [pyNumRepr, if_neg hn]
    exact parseHex_digitsAux le_rfl

theorem parseHex_integer_to_hex (n p : Nat) :
    parseHex (integer_to_hex n p) = n := by
  unfold integer_to_hex
  rw [parseHex_zfill, parseHex_pyNumRepr]

theorem length_zfill (s : List Char) (p : Nat) :
    (zfill s p).length = max p s.length := by
  simp [zfill]
  omega

theorem length_pyNumRepr_le {n k : Nat} (hk : n < 16 ^ k) (hkpos : 0 < k) :
    (pyNumRepr 16 n).length ≤ k := by
  by_cases hn : n = 0
  · subst hn; simpa [pyNumRepr] using hkpos
  · simp only [pyNumRepr, if_neg hn]
    exact length_digitsAux_le le_rfl hk

theorem length_integer_to_hex {n p : Nat} (h : n < 16 ^ p) (hp : 0 < p) :
    (integer_to_hex n p).length = p := by
  unfold integer_to_hex
  rw [length_zfill]
  have := length_pyNumRepr_le h hp
  omega

theorem space_not_mem_pyNumRepr (n : Nat) :
    (Char.ofNat 32) ∉ pyNumRepr 16 n := by
  by_cases hn : n = 0
  · subst hn
    simp only [pyNumRepr, if_pos rfl]
    decide
  · simp only [pyNumRepr, if_neg hn]
    exact space_not_mem_digitsAux (by norm_num) (by norm_num)

theorem space_not_mem_integer_to_hex (n p : Nat) :
    (Char.ofNat 32) ∉ integer_to_hex n p := by
  unfold integer_to_hex zfill
  rw [List.mem_append]
  push_neg
  constructor
  · intro hc
    have := List.eq_of_mem_replicate hc
    simp at this
  · exact space_not_mem_pyNumRepr n

/-- Decoding a pair of hex strings as one big-endian 16-bit quantity,
as the spec reads the two-byte fields: 256 * high + low, provided each
part holds two hex digits. -/
theorem parseHex_take_drop {s : List Char} (h : s.length = 4) :
    256 * parseHex (s.take 2) + parseHex (s.drop 2) = parseHex s := by
  conv_rhs => rw [← List.take_append_drop 2 s]
  rw [parseHex_append]
  have : (s.drop 2).length = 2 := by
    rw [List.length_drop, h]
  rw [this]
  ring

/-! ### Structure lemmas for the token loop -/

theorem goodEntry_string_to_hex {c : Char} (h : c.toNat < 256) :
    goodEntry (string_to_hex c) := by
  constructor
  · exact length_integer_to_hex (by norm_num [h]) (by norm_num)
  · exact space_not_mem_integer_to_hex _ _

theorem goodEntry_mnemonic {w code : List Char}
    (h : mnemonicLookup w = some code) : goodEntry code := by
  unfold mnemonicLookup at h
  rcases Option.map_eq_some'.mp h with ⟨p, hp, hcode⟩
  have hmem := List.mem_of_find?_eq_some hp
  have hall : ∀ p ∈ mnemonic_index, goodEntry p.2 := by decide
  rw [← hcode]
  exact hall p hmem

theorem letterLoop_no_elide (w : List Char) (i : Nat) (ns : Bool)
    (hexes : List (List Char)) (h : i ≠ 1 ∨ ns = false) :
    letterLoop w i ns hexes = (hexes ++ w.map string_to_hex, ns) := by
  induction w generalizing hexes with
  | nil => simp [letterLoop]
  | cons c cs ih =>
    have hcond : ¬(i = 1 ∧ c.toNat = 32 ∧ ns = true) := by
      rcases h with h | h
      · exact fun hc => h hc.1
      · subst h; simp
    simp only [letterLoop, if_neg hcond]
    rw [ih]
    simp

theorem lineLoop_hexes_ge_two (ts : List (List Char)) :
    ∀ (i : Nat) (ns : Bool) (hexes : List (List Char)) (basic : List Char),
      2 ≤ i →
      (lineLoop ts i ns hexes basic).1 = hexes ++ (ts.map noElideTok).flatten := by
  induction ts with
  | nil => intro i ns hexes basic _; simp [lineLoop]
  | cons w ws ih =>
    intro i ns hexes basic hi
    cases hlk : mnemonicLookup w with
    | some code =>
      have hi0 : ¬(i = 0) := by omega
      simp only [lineLoop, hlk, if_neg hi0]
      rw [ih (i + 1) ns _ basic (by omega)]
      simp [noElideTok, hlk]
    | none =>
      simp only [lineLoop, hlk]
      rw [letterLoop_no_elide w i ns hexes (Or.inl (by omega))]
      rw [ih (i + 1) ns _ _ (by omega)]
      simp [noElideTok, hlk]

theorem letterLoop_good (w : List Char) (i : Nat) (ns : Bool)
    (hexes : List (List Char))
    (hh : ∀ e ∈ hexes, goodEntry e) (hw : ∀ c ∈ w, c.toNat < 256) :
    ∀ e ∈ (letterLoop w i ns hexes).1, goodEntry e := by
  induction w generalizing ns hexes with
  | nil => simpa [letterLoop] using hh
  | cons c cs ih =>
    by_cases hc : i = 1 ∧ c.toNat = 32 ∧ ns = true
    · simp only [letterLoop, if_pos hc]
      exact ih false hexes hh (fun c hcm => hw c (List.mem_cons_of_mem _ hcm))
    · simp only [letterLoop, if_neg hc]
      refine ih ns _ ?_ (fun c hcm => hw c (List.mem_cons_of_mem _ hcm))
      intro e he
      rcases List.mem_append.mp he with he | he
      · exact hh e he
      · rcases List.mem_singleton.mp he with rfl
        exact goodEntry_string_to_hex (hw c (List.mem_cons_self _ _))

theorem lineLoop_good (ts : List (List Char)) :
    ∀ (i : Nat) (ns : Bool) (hexes : List (List Char)) (basic : List Char),
      (∀ e ∈ hexes, goodEntry e) → (∀ w ∈ ts, ∀ c ∈ w, c.toNat < 256) →
      ∀ e ∈ (lineLoop ts i ns hexes basic).1, goodEntry e := by
  induction ts with
  | nil => intro i ns hexes basic hh _; simpa [lineLoop] using hh
  | cons w ws ih =>
    intro i ns hexes basic hh hts
    cases hlk : mnemonicLookup w with
    | some code =>
      simp only [lineLoop, hlk]
      refine ih _ _ _ _ ?_ (fun w hwm => hts w (List.mem_cons_of_mem _ hwm))
      intro e he
      rcases List.mem_append.mp he with he | he
      · exact hh e he
      · rcases List.mem_singleton.mp he with rfl
        exact goodEntry_mnemonic hlk
    | none =>
      simp only [lineLoop, hlk]
      refine ih _ _ _ _ ?_ (fun w hwm => hts w (List.mem_cons_of_mem _ hwm))
      exact letterLoop_good w i ns hexes hh (hts w (List.mem_cons_self _ _))

theorem lineLoop_last_basic (ts : List (List Char)) :
    ∀ (i : Nat) (ns : Bool) (hexes : List (List Char)) (basic : List Char)
      (w : List Char), ts.getLast? = some w → mnemonicLookup w = none →
      (lineLoop ts i ns hexes basic).2 =
        get_basic_size (join_space (lineLoop ts i ns hexes basic).1) 1 2 := by
  induction ts with
  | nil => intro i ns hexes basic w hlast; simp at hlast
  | cons t ts ih =>
    intro i ns hexes basic w hlast hnone
    cases ts with
    | nil =>
      simp only [List.getLast?_singleton, Option.some_inj] at hlast
      subst hlast
      simp only [lineLoop, hnone]
    | cons t2 ts2 =>
      have hlast2 : (t2 :: ts2).getLast? = some w := by
        rwa [List.getLast?_cons_cons] at hlast
      cases hlk : mnemonicLookup t with
      | some code =>
        simp only [lineLoop, hlk]
        exact ih _ _ _ _ w hlast2 hnone
      | none =>
        simp only [lineLoop, hlk]
        exact ih _ _ _ _ w hlast2 hnone

theorem filter_join_space {l : List (List Char)}
    (h : ∀ e ∈ l, (Char.ofNat 32) ∉ e) :
    (join_space l).filter (fun c => !(c == Char.ofNat 32)) = l.flatten := by
  induction l with
  | nil => rfl
  | cons x xs ih =>
    have hx : x.filter (fun c => !(c == Char.ofNat 32)) = x := by
      rw [List.filter_eq_self]
      intro a ha
      have : a ≠ Char.ofNat 32 := by
        intro hc; exact h x (List.mem_cons_self _ _) (hc ▸ ha)
      simpa using this
    cases xs with
    | nil => simpa [join_space] using hx
    | cons y ys =>
      have hys : ∀ e ∈ y :: ys, (Char.ofNat 32) ∉ e :=
        fun e he => h e (List.mem_cons_of_mem _ he)
      simp only [join_space, List.filter_append, List.filter_cons, List.flatten_cons]
      rw [hx, ih hys]
      simp

theorem length_flatten_two {l : List (List Char)}
    (h : ∀ e ∈ l, e.length = 2) : l.flatten.length = 2 * l.length := by
  induction l with
  | nil => simp
  | cons x xs ih =>
    simp only [List.flatten_cons, List.length_append, List.length_cons]
    rw [h x (List.mem_cons_self _ _), ih (fun e he => h e (List.mem_cons_of_mem _ he))]
    ring

theorem repeatL_length {α : Type} (l : List α) (k : Nat) :
    (repeatL l k).length = k * l.length := by
  induction k with
  | zero => simp [repeatL]
  | succ k ih =>
    simp only [repeatL, List.replicate_succ, List.flatten_cons, List.length_append]
    simp only [repeatL] at ih
    rw [ih]
    ring

/-! ### Character-level lemmas -/

theorem toNat_Char_ofNat {n : Nat} (h : n < 55296) : (Char.ofNat n).toNat = n := by
  unfold Char.ofNat
  rw [dif_pos (Or.inl h)]
  rfl

theorem upperChar_idem (c : Char) : upperChar (upperChar c) = upperChar c := by
  unfold upperChar
  by_cases h : 97 ≤ c.toNat ∧ c.toNat ≤ 122
  · rw [if_pos h]
    have ht : (Char.ofNat (c.toNat - 32)).toNat = c.toNat - 32 :=
      toNat_Char_ofNat (by omega)
    rw [if_neg]
    rw [ht]
    omega
  · rw [if_neg h, if_neg h]

theorem upperChar_toNat_lt {c : Char} (h : c.toNat < 256) :
    (upperChar c).toNat < 256 := by
  unfold upperChar
  by_cases hc : 97 ≤ c.toNat ∧ c.toNat ≤ 122
  · rw [if_pos hc, toNat_Char_ofNat (by omega)]
    omega
  · rwa [if_neg hc]

theorem splitAux_chars (s : List Char) :
    ∀ (mode : Bool) (acc : List Char) (w : List Char),
      w ∈ splitAux mode acc s → ∀ c ∈ w, c ∈ acc ∨ c ∈ s := by
  induction s with
  | nil =>
    intro mode acc w hw c hc
    cases mode <;> simp [splitAux] at hw
    · subst hw
      exact Or.inl (List.mem_reverse.mp hc)
    · rcases hw with rfl | rfl
      · exact Or.inl (List.mem_reverse.mp hc)
      · simp at hc
  | cons a as ih =>
    intro mode acc w hw c hc
    by_cases hsp : isPySpace a = true
    · cases mode <;> simp [splitAux, hsp] at hw
      · rcases hw with rfl | hw
        · exact Or.inl (List.mem_reverse.mp hc)
        · rcases ih true [a] w hw c hc with h | h
          · rcases List.mem_singleton.mp h with rfl
            exact Or.inr (List.mem_cons_self _ _)
          · exact Or.inr (List.mem_cons_of_mem _ h)
      · rcases ih true (a :: acc) w hw c hc with h | h
        · rcases List.mem_cons.mp h with rfl | h
          · exact Or.inr (List.mem_cons_self _ _)
          · exact Or.inl h
        · exact Or.inr (List.mem_cons_of_mem _ h)
    · cases mode <;> simp [splitAux, hsp] at hw
      · rcases ih false (a :: acc) w hw c hc with h | h
        · rcases List.mem_cons.mp h with rfl | h
          · exact Or.inr (List.mem_cons_self _ _)
          · exact Or.inl h
        · exact Or.inr (List.mem_cons_of_mem _ h)
      · rcases hw with rfl | hw
        · exact Or.inl (List.mem_reverse.mp hc)
        · rcases ih false [a] w hw c hc with h | h
          · rcases List.mem_singleton.mp h with rfl
            exact Or.inr (List.mem_cons_self _ _)
          · exact Or.inr (List.mem_cons_of_mem _ h)

theorem splitTokens_chars {s w : List Char} (hw : w ∈ splitTokens s) :
    ∀ c ∈ w, c ∈ s := by
  intro c hc
  rcases splitAux_chars s false [] w hw c hc with h | h
  · simp at h
  · exact h

/-- Characters of the code body returned by Extract_Number_String are
uppercased characters of the input line. -/
theorem extract_code_chars_lt {l : List Char} {lab : Nat} {code : List Char}
    (h1 : Extract_Number_String l = (some lab, code))
    (h2 : ∀ c ∈ l, c.toNat < 256) :
    ∀ c ∈ code, c.toNat < 256 := by
  intro c hc
  unfold Extract_Number_String at h1
  by_cases hemp : ((l.map upperChar).takeWhile (fun c => c.isDigit)).isEmpty
  · simp only [hemp, if_pos] at h1
    simp at h1
  · simp only [hemp, if_neg, Bool.false_eq_true, not_false_iff] at h1
    have hcode : code =
        ((l.map upperChar).dropWhile (fun c => c.isDigit)).dropWhile isPySpace := by
      have := congrArg Prod.snd h1
      simpa using this.symm
    subst hcode
    have hmem : c ∈ l.map upperChar := by
      have hsub1 := (List.dropWhile_sublist (l := (l.map upperChar).dropWhile
        (fun c => c.isDigit)) (p := isPySpace)).subset hc
      exact (List.dropWhile_sublist (l := l.map upperChar)
        (p := (fun c => c.isDigit))).subset hsub1
    rcases List.mem_map.mp hmem with ⟨c0, hc0, rfl⟩
    exact upperChar_toNat_lt (h2 c0 hc0)

/-- A word list of tokenized code plus the trailing carriage-return
token has only characters below 256 when the line does. -/
theorem tokens_chars_lt {l : List Char} {lab : Nat} {code : List Char}
    (h1 : Extract_Number_String l = (some lab, code))
    (h2 : ∀ c ∈ l, c.toNat < 256) :
    ∀ w ∈ splitTokens code ++ [[Char.ofNat 13]], ∀ c ∈ w, c.toNat < 256 := by
  intro w hw c hc
  rcases List.mem_append.mp hw with hw | hw
  · exact extract_code_chars_lt h1 h2 c (splitTokens_chars hw c hc)
  · rcases List.mem_singleton.mp hw with rfl
    rcases List.mem_singleton.mp hc with rfl
    decide

/-- With only regular two-digit space-free entries, get_basic_size of
the space-joined entries is the entry count plus the offset. -/
theorem get_basic_size_eq {l : List (List Char)} (h : ∀ e ∈ l, goodEntry e)
    (off pad : Nat) :
    get_basic_size (join_space l) off pad = integer_to_hex (l.length + off) pad := by
  unfold get_basic_size
  rw [filter_join_space (fun e he => (h e he).2),
      length_flatten_two (fun e he => (h e he).1)]
  congr 1
  omega

theorem encodeTokens_good {ts : List (List Char)}
    (h : ∀ w ∈ ts, ∀ c ∈ w, c.toNat < 256) :
    ∀ e ∈ (encodeTokens ts).1, goodEntry e := by
  unfold encodeTokens
  exact lineLoop_good ts 0 false [] [] (by simp) h

theorem encodeTokens_basic {ts : List (List Char)} {w : List Char}
    (hlast : ts.getLast? = some w) (hnone : mnemonicLookup w = none) :
    (encodeTokens ts).2 = get_basic_size (join_space (encodeTokens ts).1) 1 2 := by
  unfold encodeTokens
  exact lineLoop_last_basic ts 0 false [] [] w hlast hnone

/-- The per-line basic_line_hex byte decodes to the number of emitted
code bytes plus one, for an accepted ASCII line. -/
theorem encodeTokens_basic_value {l : List Char} {lab : Nat} {code : List Char}
    (h1 : Extract_Number_String l = (some lab, code))
    (h2 : ∀ c ∈ l, c.toNat < 256) :
    parseHex ((encodeTokens (splitTokens code ++ [[Char.ofNat 13]])).2) =
      (encodeTokens (splitTokens code ++ [[Char.ofNat 13]])).1.length + 1 := by
  have hlast : (splitTokens code ++ [[Char.ofNat 13]]).getLast? =
      some [Char.ofNat 13] := by
    rw [List.getLast?_concat]
  have hnone : mnemonicLookup [Char.ofNat 13] = none := by decide
  rw [encodeTokens_basic hlast hnone,
      get_basic_size_eq (encodeTokens_good (tokens_chars_lt h1 h2)) 1 2,
      parseHex_integer_to_hex]

theorem Encode_Data_drop_one (sb : Nat) (bits : List Char) :
    (Encode_Data sb bits).drop 1 =
      (dataLoop bits.reverse 0).1 ++
        [if (dataLoop bits.reverse 0).2 % 2 = 0 then Pulse.zero else Pulse.one] := by
  unfold Encode_Data
  simp

/-! ### Per-line goodness of the emitted token stream -/

theorem tokenStream_good {l : List Char}
    (h2 : ∀ c ∈ l, c.toNat < 256)
    (hLab : ∀ lab code, Extract_Number_String l = (some lab, code) → lab < 65536)
    (hLen : (tokenStream l).length ≤ 257) :
    ∀ e ∈ tokenStream l, goodEntry e := by
  rcases hE : Extract_Number_String l with ⟨o, rest⟩
  cases o with
  | none =>
    simp only [tokenStream, hE]
    intro e he
    simp at he
  | some lab =>
    have hlab : lab < 65536 := hLab lab rest hE
    have hH4 : (integer_to_hex lab 4).length = 4 :=
      length_integer_to_hex (by norm_num [hlab]) (by norm_num)
    have hHsp : (Char.ofNat 32) ∉ integer_to_hex lab 4 :=
      space_not_mem_integer_to_hex lab 4
    have hr1 : ∀ e ∈ (encodeTokens (splitTokens rest ++ [[Char.ofNat 13]])).1, goodEntry e :=
      encodeTokens_good (tokens_chars_lt hE h2)
    have hlen1 : (tokenStream l).length =
        3 + (encodeTokens (splitTokens rest ++ [[Char.ofNat 13]])).1.length := by
      simp only [tokenStream, hE, List.length_cons]
      omega
    have hcnt : (encodeTokens (splitTokens rest ++ [[Char.ofNat 13]])).1.length + 1 < 256 := by
      omega
    have hbasic : (encodeTokens (splitTokens rest ++ [[Char.ofNat 13]])).2 =
        integer_to_hex ((encodeTokens (splitTokens rest ++ [[Char.ofNat 13]])).1.length + 1) 2 := by
      rw [encodeTokens_basic (by rw [List.getLast?_concat]) (by decide),
          get_basic_size_eq hr1 1 2]
    simp only [tokenStream, hE]
    intro e he
    rcases List.mem_cons.mp he with rfl | he
    · constructor
      · rw [List.length_take, hH4]
        omega
      · intro hc
        exact hHsp (List.take_subset _ _ hc)
    · rcases List.mem_cons.mp he with rfl | he
      · constructor
        · rw [List.length_drop, hH4]
        · intro hc
          exact hHsp (List.drop_subset _ _ hc)
      · rcases List.mem_cons.mp he with rfl | he
        · rw [hbasic]
          constructor
          · exact length_integer_to_hex (by norm_num [hcnt]) (by norm_num)
          · exact space_not_mem_integer_to_hex _ _
        · exact hr1 e he

/-! ### Claim C1 -/

/-- Claim C1 (counterexample): the source input line 10 END does not
produce the token stream 00 0A 02 94 0D claimed by the spec; the
line-length byte differs. -/
theorem claim_C1_counterexample :
    (tokenStream ['1', '0', ' ', 'E', 'N', 'D']).map parseHex ≠
      [0x00, 0x0A, 0x02, 0x94, 0x0D] := by
  decide

/-- Claim C1 (amended): the token stream actually emitted for the line
10 END is 00 0A 03 94 0D; the line-length byte is 0x03, the count of
code bytes including the carriage return plus one. -/
theorem claim_C1_amended :
    (tokenStream ['1', '0', ' ', 'E', 'N', 'D']).map parseHex =
      [0x00, 0x0A, 0x03, 0x94, 0x0D] := by
  decide

/-! ### Claim C2 -/

/-- Claim C2 (counterexample): for the accepted line 20 NEW the
line-length byte decodes to 3 while the number of emitted code bytes
including the carriage return is 2; they are not equal. -/
theorem claim_C2_counterexample :
    parseHex ((tokenStream ['2', '0', ' ', 'N', 'E', 'W']).getD 2 []) ≠
      (tokenStream ['2', '0', ' ', 'N', 'E', 'W']).length - 3 := by
  decide

/-- Claim C2 (amended): for every accepted source line of characters
below 256, the line-length byte equals the number of emitted code
bytes (including the terminating carriage-return byte) plus one. -/
theorem claim_C2_amended (l : List Char) (lab : Nat) (code : List Char)
    (h1 : Extract_Number_String l = (some lab, code))
    (h2 : ∀ c ∈ l, c.toNat < 256) :
    parseHex ((tokenStream l).getD 2 []) = ((tokenStream l).length - 3) + 1 := by
  simp only [tokenStream, h1, List.getD_cons_succ, List.getD_cons_zero, List.length_cons]
  rw [encodeTokens_basic_value h1 h2]
  omega

/-- Claim C2 witness: the amended statement at the line 10 END. -/
theorem claim_C2_witness :
    Extract_Number_String ['1', '0', ' ', 'E', 'N', 'D'] = (some 10, ['E', 'N', 'D']) ∧
    (∀ c ∈ ['1', '0', ' ', 'E', 'N', 'D'], c.toNat < 256) ∧
    parseHex ((tokenStream ['1', '0', ' ', 'E', 'N', 'D']).getD 2 []) =
      ((tokenStream ['1', '0', ' ', 'E', 'N', 'D']).length - 3) + 1 :=
  ⟨by decide, by decide,
    claim_C2_amended ['1', '0', ' ', 'E', 'N', 'D'] 10 ['E', 'N', 'D']
      (by decide) (by decide)⟩

/-! ### Claim C3 -/

/-- Claim C3 (counterexample): for the single-line file 10 END the
ProgramBlock has 15 entries and its total-length field also decodes to
15, so the block length is not the decoded length plus 2. -/
theorem claim_C3_counterexample :
    ¬ ((Create_BinData [['1', '0', ' ', 'E', 'N', 'D']]).length =
       (256 * parseHex ((Create_BinData [['1', '0', ' ', 'E', 'N', 'D']]).getD 2 []) +
          parseHex ((Create_BinData [['1', '0', ' ', 'E', 'N', 'D']]).getD 3 [])) + 2) := by
  decide

/-- Claim C3 (amended): for every well-formed input (characters below
256, labels below 65536, at most 254 code bytes per line, and a total
below 65536) the total byte length of the ProgramBlock equals the
16-bit value decoded from the two big-endian total-length bytes; the
two checksum bytes lie inside the counted length, not outside it. -/
theorem claim_C3_amended (lines : List (List Char))
    (hA : ∀ l ∈ lines, ∀ c ∈ l, c.toNat < 256)
    (hLab : ∀ l ∈ lines, ∀ lab code, Extract_Number_String l = (some lab, code) → lab < 65536)
    (hLen : ∀ l ∈ lines, (tokenStream l).length ≤ 257)
    (hTot : ((lines.map tokenStream).flatten).length + 10 < 65536) :
    (Create_BinData lines).length =
      256 * parseHex ((Create_BinData lines).getD 2 []) +
        parseHex ((Create_BinData lines).getD 3 []) := by
  have hgood : ∀ e ∈ (lines.map tokenStream).flatten, goodEntry e := by
    intro e he
    rcases List.mem_flatten.mp he with ⟨ts, hts, hets⟩
    rcases List.mem_map.mp hts with ⟨l, hl, rfl⟩
    exact tokenStream_good (hA l hl) (hLab l hl) (hLen l hl) e hets
  have hbsh : get_basic_size (join_space ((lines.map tokenStream).flatten)) 10 4 =
      integer_to_hex (((lines.map tokenStream).flatten).length + 10) 4 :=
    get_basic_size_eq hgood 10 4
  have h4 : (integer_to_hex (((lines.map tokenStream).flatten).length + 10) 4).length = 4 := by
    apply length_integer_to_hex ?_ (by norm_num)
    have h16 : (16 : Nat) ^ 4 = 65536 := by norm_num
    omega
  simp only [Create_BinData, hbsh, List.getD_cons_succ, List.getD_cons_zero]
  rw [parseHex_take_drop h4, parseHex_integer_to_hex]
  simp only [List.length_cons, List.length_append, List.length_replicate]
  omega

/-- Claim C3 witness: the amended statement at the one-line file
10 END. -/
theorem claim_C3_witness :
    (∀ l ∈ [['1', '0', ' ', 'E', 'N', 'D']], ∀ c ∈ l, c.toNat < 256) ∧
    (([['1', '0', ' ', 'E', 'N', 'D']].map tokenStream).flatten).length + 10 < 65536 ∧
    (Create_BinData [['1', '0', ' ', 'E', 'N', 'D']]).length =
      256 * parseHex ((Create_BinData [['1', '0', ' ', 'E', 'N', 'D']]).getD 2 []) +
        parseHex ((Create_BinData [['1', '0', ' ', 'E', 'N', 'D']]).getD 3 []) :=
  ⟨by decide, by decide,
    claim_C3_amended [['1', '0', ' ', 'E', 'N', 'D']]
      (by decide)
      (by intro l hl lab code hE
          rcases List.mem_singleton.mp hl with rfl
          have h10 : Extract_Number_String ['1', '0', ' ', 'E', 'N', 'D'] =
              (some 10, ['E', 'N', 'D']) := by decide
          rw [h10] at hE
          simp only [Prod.mk.injEq, Option.some_inj] at hE
          obtain ⟨h1, h2⟩ := hE
          omega)
      (by decide)
      (by decide)⟩

/-! ### Claim C4 -/

set_option maxRecDepth 1000000 in
/-- Claim C4 (counterexample): for a nine-line file whose byte sum
exceeds 16 bits, the value decoded from the two leading checksum
entries differs from the byte sum modulo 65536, and the second
checksum entry has three hex digits instead of two: the sum is not
wrapped and the two-hex-digit encoding is corrupted. -/
theorem claim_C4_counterexample :
    (256 * parseHex ((Create_BinData
          (List.replicate 9 (['1', ' '] ++ List.replicate 80 'Z'))).getD 0 []) +
        parseHex ((Create_BinData
          (List.replicate 9 (['1', ' '] ++ List.replicate 80 'Z'))).getD 1 []) ≠
      (((Create_BinData
          (List.replicate 9 (['1', ' '] ++ List.replicate 80 'Z'))).drop 2).map parseHex).sum
        % 65536) ∧
    ((Create_BinData
        (List.replicate 9 (['1', ' '] ++ List.replicate 80 'Z'))).getD 1 []).length ≠ 2 := by
  decide

/-- Claim C4 (amended): when the byte sum of everything after the two
checksum bytes fits in 16 bits, the value decoded from the two leading
checksum bytes equals that sum (and hence the sum modulo 65536); a sum
of 65536 or more is not reduced and corrupts the encoding, as the
counterexample shows. -/
theorem claim_C4_amended (lines : List (List Char))
    (h : block_body_sum lines < 65536) :
    256 * parseHex ((Create_BinData lines).getD 0 []) +
      parseHex ((Create_BinData lines).getD 1 []) =
      block_body_sum lines % 65536 := by
  have hdrop : (Create_BinData lines).drop 2 =
      (get_basic_size (join_space ((lines.map tokenStream).flatten)) 10 4).take 2 ::
        (get_basic_size (join_space ((lines.map tokenStream).flatten)) 10 4).drop 2 ::
        (List.replicate 6 (integer_to_hex 0 2) ++ (lines.map tokenStream).flatten) := by
    simp [Create_BinData]
  have hsum : block_body_sum lines =
      (((get_basic_size (join_space ((lines.map tokenStream).flatten)) 10 4).take 2 ::
        (get_basic_size (join_space ((lines.map tokenStream).flatten)) 10 4).drop 2 ::
        (List.replicate 6 (integer_to_hex 0 2) ++
          (lines.map tokenStream).flatten)).map parseHex).sum := by
    rw [block_body_sum, hdrop]
  have h4 : (integer_to_hex ((((get_basic_size (join_space ((lines.map tokenStream).flatten))
      10 4).take 2 ::
      (get_basic_size (join_space ((lines.map tokenStream).flatten)) 10 4).drop 2 ::
      (List.replicate 6 (integer_to_hex 0 2) ++
        (lines.map tokenStream).flatten)).map parseHex).sum) 4).length = 4 := by
    apply length_integer_to_hex ?_ (by norm_num)
    rw [← hsum]
    norm_num [h]
  simp only [Create_BinData, List.getD_cons_succ, List.getD_cons_zero]
  rw [parseHex_take_drop h4, parseHex_integer_to_hex, ← hsum, Nat.mod_eq_of_lt h]

/-- Claim C4 witness: the amended statement at the one-line file
10 END, whose byte sum is 189. -/
theorem claim_C4_witness :
    block_body_sum [['1', '0', ' ', 'E', 'N', 'D']] < 65536 ∧
    256 * parseHex ((Create_BinData [['1', '0', ' ', 'E', 'N', 'D']]).getD 0 []) +
      parseHex ((Create_BinData [['1', '0', ' ', 'E', 'N', 'D']]).getD 1 []) =
      block_body_sum [['1', '0', ' ', 'E', 'N', 'D']] % 65536 :=
  ⟨by decide, claim_C4_amended [['1', '0', ' ', 'E', 'N', 'D']] (by decide)⟩

/-! ### Claim C5 -/

set_option maxRecDepth 200000 in
/-- Claim C5 (confirmed): for every byte value below 256, the number
of one-frequency pulses among the 8 data-bit pulses plus the parity
pulse is even; the start-bit pulse (dropped here) is not counted. -/
theorem claim_C5 (sb v : Nat) (hv : v < 256) :
    ((Encode_Data sb (toBinary8 v)).drop 1).count Pulse.one % 2 = 0 := by
  rw [Encode_Data_drop_one]
  have key : ∀ v, v < 256 →
      ((dataLoop (toBinary8 v).reverse 0).1 ++
        [if (dataLoop (toBinary8 v).reverse 0).2 % 2 = 0 then Pulse.zero
          else Pulse.one]).count Pulse.one % 2 = 0 := by
    decide
  exact key v hv

/-- Claim C5 witness: the even-parity law at byte 0x94. -/
theorem claim_C5_witness :
    (148 : Nat) < 256 ∧
    ((Encode_Data 1 (toBinary8 148)).drop 1).count Pulse.one % 2 = 0 :=
  ⟨by decide, claim_C5 1 148 (by decide)⟩

/-! ### Claim C6 -/

set_option maxRecDepth 200000 in
/-- Claim C6 (confirmed): for every start-bit setting below 2 and
every byte value below 256 the modulator emits exactly 10 pulses: a
start pulse that is a one-pulse exactly when the setting is 1, then 8
data pulses least-significant bit first, each a one-pulse exactly when
that bit of the byte is 1, then one parity pulse. -/
theorem claim_C6 (sb v : Nat) (hsb : sb < 2) (hv : v < 256) :
    Encode_Data sb (toBinary8 v) =
      (if sb = 1 then Pulse.one else Pulse.zero) ::
        (((List.range 8).map fun k => if v / 2 ^ k % 2 = 1 then Pulse.one else Pulse.zero) ++
          [if ((List.range 8).map fun k => v / 2 ^ k % 2).sum % 2 = 1 then Pulse.one
            else Pulse.zero]) := by
  have key0 : ∀ v, v < 256 →
      Encode_Data 0 (toBinary8 v) =
        (if (0 : Nat) = 1 then Pulse.one else Pulse.zero) ::
          (((List.range 8).map fun k => if v / 2 ^ k % 2 = 1 then Pulse.one else Pulse.zero) ++
            [if ((List.range 8).map fun k => v / 2 ^ k % 2).sum % 2 = 1 then Pulse.one
              else Pulse.zero]) := by
    decide
  have key1 : ∀ v, v < 256 →
      Encode_Data 1 (toBinary8 v) =
        (if (1 : Nat) = 1 then Pulse.one else Pulse.zero) ::
          (((List.range 8).map fun k => if v / 2 ^ k % 2 = 1 then Pulse.one else Pulse.zero) ++
            [if ((List.range 8).map fun k => v / 2 ^ k % 2).sum % 2 = 1 then Pulse.one
              else Pulse.zero]) := by
    decide
  interval_cases sb
  · exact key0 v hv
  · exact key1 v hv

set_option maxRecDepth 10000 in
/-- Claim C6 witness: the frame shape at start bit 1 and byte 0x94. -/
theorem claim_C6_witness :
    (1 : Nat) < 2 ∧ (148 : Nat) < 256 ∧
    Encode_Data 1 (toBinary8 148) =
      (if (1 : Nat) = 1 then Pulse.one else Pulse.zero) ::
        (((List.range 8).map fun k => if 148 / 2 ^ k % 2 = 1 then Pulse.one else Pulse.zero) ++
          [if ((List.range 8).map fun k => 148 / 2 ^ k % 2).sum % 2 = 1 then Pulse.one
            else Pulse.zero]) :=
  ⟨by decide, by decide, claim_C6 1 148 (by decide) (by decide)⟩

/-! ### Claim C7 -/

/-- Claim C7 (counterexample): at frame rate 44100, zero frequency
4800 and leader 60 seconds, the leader falls 240 samples short of
leader times framerate, more than the 8 samples of one pulse cycle. -/
theorem claim_C7_counterexample :
    ¬ (60 * 44100 - (leader_samples 44100 4800 60).length ≤
        (make_square_wave 4800 44100).length) := by
  have h1 : (make_square_wave 4800 44100).length = 8 := by decide
  have h2 : (leader_samples 44100 4800 60).length = 2645760 := by
    unfold leader_samples
    rw [repeatL_length, h1]
  rw [h1, h2]
  norm_num

/-- Claim C7 (amended): the leader length equals leader_seconds times
the frame rate rounded down to a whole number of pulse cycles, so it
approaches leader_seconds times framerate only to within
leader_seconds pulse cycles (not one); the trailer is exactly blanks
one-pulses. -/
theorem claim_C7_amended (fr oq zq sb ld blanks : Nat) (data : List (List Char))
    (hL : 0 < (make_square_wave zq fr).length) :
    (leader_samples fr zq ld).length =
      ld * (fr - fr % (make_square_wave zq fr).length) ∧
    ld * fr - (leader_samples fr zq ld).length ≤
      ld * ((make_square_wave zq fr).length - 1) ∧
    Write_Wav fr oq zq sb ld blanks data =
      leader_samples fr zq ld ++
        ((data.map (fun b => ((Encode_Data sb b).map (pulseSamples fr oq zq)).flatten)).flatten) ++
        repeatL (make_square_wave oq fr) blanks ∧
    (repeatL (make_square_wave oq fr) blanks).length =
      blanks * (make_square_wave oq fr).length := by
  have hdm := Nat.div_add_mod fr (make_square_wave zq fr).length
  have hmod : fr % (make_square_wave zq fr).length < (make_square_wave zq fr).length :=
    Nat.mod_lt _ hL
  have hlen : (leader_samples fr zq ld).length =
      (fr / (make_square_wave zq fr).length * ld) * (make_square_wave zq fr).length := by
    unfold leader_samples
    rw [repeatL_length]
  have h1 : (leader_samples fr zq ld).length =
      ld * (fr - fr % (make_square_wave zq fr).length) := by
    rw [hlen, show fr - fr % (make_square_wave zq fr).length =
      (make_square_wave zq fr).length * (fr / (make_square_wave zq fr).length) from by omega]
    ring
  refine ⟨h1, ?_, rfl, repeatL_length _ _⟩
  rw [h1]
  have hexp : ld * fr = ld * (fr - fr % (make_square_wave zq fr).length) +
      ld * (fr % (make_square_wave zq fr).length) := by
    rw [← Nat.mul_add]
    congr 1
    omega
  rw [hexp, Nat.add_sub_cancel_left]
  exact Nat.mul_le_mul (le_refl ld) (by omega)

/-- Claim C7 witness: the amended statement at the default
configuration with no data bytes. -/
theorem claim_C7_witness :
    0 < (make_square_wave 2000 22050).length ∧
    ((leader_samples 22050 2000 8).length =
        8 * (22050 - 22050 % (make_square_wave 2000 22050).length) ∧
      8 * 22050 - (leader_samples 22050 2000 8).length ≤
        8 * ((make_square_wave 2000 22050).length - 1) ∧
      Write_Wav 22050 800 2000 1 8 25 [] =
        leader_samples 22050 2000 8 ++
          (([] : List (List Char)).map
              (fun b => ((Encode_Data 1 b).map (pulseSamples 22050 800 2000)).flatten)).flatten ++
          repeatL (make_square_wave 800 22050) 25 ∧
      (repeatL (make_square_wave 800 22050) 25).length =
        25 * (make_square_wave 800 22050).length) :=
  ⟨by decide, claim_C7_amended 22050 800 2000 1 8 25 [] (by decide)⟩

/-! ### Claim C8 -/

/-- Claim C8 (confirmed): when the first token of a line matches a
mnemonic, a single blank-space second token is elided and every later
token is encoded with no further elision (so the suppression happens
at most once per line); when the first token does not match, the space
is emitted as its own byte. -/
theorem claim_C8 :
    (∀ t0 c0 rest, mnemonicLookup t0 = some c0 →
      (encodeTokens (t0 :: [Char.ofNat 32] :: rest)).1 =
        c0 :: (rest.map noElideTok).flatten) ∧
    (∀ t0 rest, mnemonicLookup t0 = none →
      (encodeTokens (t0 :: [Char.ofNat 32] :: rest)).1 =
        t0.map string_to_hex ++
          string_to_hex (Char.ofNat 32) :: (rest.map noElideTok).flatten) := by
  have hsp : mnemonicLookup [Char.ofNat 32] = none := by decide
  have h32 : (Char.ofNat 32).toNat = 32 := by decide
  constructor
  · intro t0 c0 rest h
    unfold encodeTokens
    simp only [lineLoop, h, hsp, letterLoop, h32, List.nil_append, if_true, and_true,
      true_and, and_self, eq_self_iff_true, ite_true]
    rw [lineLoop_hexes_ge_two rest 2 false [c0] _ (by omega)]
    simp
  · intro t0 rest h
    unfold encodeTokens
    simp only [lineLoop, h, hsp]
    rw [letterLoop_no_elide t0 0 false [] (Or.inl (by omega))]
    simp only [List.nil_append]
    rw [letterLoop_no_elide [Char.ofNat 32] (0 + 1) false (List.map string_to_hex t0)
      (Or.inr rfl)]
    rw [lineLoop_hexes_ge_two rest (0 + 1 + 1) false _ _ (by omega)]
    simp

/-- Claim C8 witness: END followed by one space and the letter A emits
the code 94, no space byte, then 41 and the carriage return 0D. -/
theorem claim_C8_witness :
    (encodeTokens [['E', 'N', 'D'], [Char.ofNat 32], ['A'], [Char.ofNat 13]]).1 =
      [['9', '4'], ['4', '1'], ['0', 'D']] := by
  rw [claim_C8.1 ['E', 'N', 'D'] ['9', '4'] [['A'], [Char.ofNat 13]] (by decide)]
  decide

/-! ### Claim C9 -/

/-- Claim C9 (confirmed): a line without a leading digit run
contributes no bytes, and dropping it from the file leaves the
ProgramBlock of the remaining lines unchanged. -/
theorem claim_C9 (pre post : List (List Char)) (bad : List Char)
    (h : (Extract_Number_String bad).1 = none) :
    tokenStream bad = [] ∧
    Create_BinData (pre ++ bad :: post) = Create_BinData (pre ++ post) := by
  have hts : tokenStream bad = [] := by
    rcases hE : Extract_Number_String bad with ⟨o, rest⟩
    rw [hE] at h
    simp only at h
    subst h
    simp only [tokenStream, hE]
  refine ⟨hts, ?_⟩
  have hca : ((pre ++ bad :: post).map tokenStream).flatten =
      ((pre ++ post).map tokenStream).flatten := by
    simp [hts]
  simp only [Create_BinData]
  rw [hca]

/-- Claim C9 witness: a REM line without a label between two numbered
lines is skipped and the block equals the one without it. -/
theorem claim_C9_witness :
    (Extract_Number_String ['R', 'E', 'M', ' ', 'X']).1 = none ∧
    tokenStream ['R', 'E', 'M', ' ', 'X'] = [] ∧
    Create_BinData
        [['1', '0', ' ', 'E', 'N', 'D'], ['R', 'E', 'M', ' ', 'X'],
          ['2', '0', ' ', 'N', 'E', 'W']] =
      Create_BinData [['1', '0', ' ', 'E', 'N', 'D'], ['2', '0', ' ', 'N', 'E', 'W']] := by
  have h := claim_C9 [['1', '0', ' ', 'E', 'N', 'D']] [['2', '0', ' ', 'N', 'E', 'W']]
      ['R', 'E', 'M', ' ', 'X'] (by decide)
  exact ⟨by decide, h.1, h.2⟩

/-! ### Claim C10 -/

/-- Claim C10 (confirmed): the line is uppercased before label
extraction and tokenization, so encoding any line gives exactly the
bytes of encoding its uppercased form, per line and for whole
files. -/
theorem claim_C10 :
    (∀ l : List Char, tokenStream (l.map upperChar) = tokenStream l) ∧
    (∀ lines : List (List Char),
      Create_BinData (lines.map (fun l => l.map upperChar)) = Create_BinData lines) := by
  have hext : ∀ l : List Char,
      Extract_Number_String (l.map upperChar) = Extract_Number_String l := by
    intro l
    unfold Extract_Number_String
    rw [List.map_map]
    have hm : List.map (upperChar ∘ upperChar) l = List.map upperChar l :=
      List.map_congr_left (fun c _ => upperChar_idem c)
    rw [hm]
  have hts : ∀ l : List Char, tokenStream (l.map upperChar) = tokenStream l := by
    intro l
    unfold tokenStream
    rw [hext]
  refine ⟨hts, ?_⟩
  intro lines
  have hca : (lines.map (fun l => l.map upperChar)).map tokenStream =
      lines.map tokenStream := by
    rw [List.map_map]
    exact List.map_congr_left (fun l _ => hts l)
  simp only [Create_BinData]
  rw [hca]

end VP700
